import Mathlib

/-!
Verification development for the Chem-app real-time streaming pipeline.

The definitions below are a shallow embedding of the client-side JavaScript
hooks of the repository:

* `useStreamingVoice.js` — the audio playback scheduler (`playAudio`,
  `processAudioQueue` / `playNextInQueue`, `stopSpeaking`);
* `useSSEChat.js` — the SSE frame reassembly loop, `parseSSEEvent` and
  `handleSSEEvent`;
* `useChatStream.js` — the legacy whole-buffer scanner `processStreamChunk`
  (fenced tool blocks and `[EVENT]` markers) and its streaming loop;
* `useVoice.js` — `extractStableSentences` and its carried next index.

Strings are modelled as `List Char`.  JavaScript regular expressions are
modelled by hand-written deterministic scanners implementing the exact
matching semantics of the concrete patterns appearing in the source.
`JSON.parse` is modelled by a small executable JSON reader producing a
`Json` value, with JavaScript truthiness made explicit.
-/

namespace ChemApp

/-! ## Basic character and string utilities -/

/-- JavaScript whitespace (the ASCII part of `\s`, which is what the data
in this pipeline can contain). -/
def isWsChar (c : Char) : Bool :=
  c = ' ' || c = '\t' || c = '\n' || c = '\r' || c = '\x0b' || c = '\x0c'

/-- Model of `String.prototype.trimStart` on the ASCII whitespace model. -/
def trimStart (l : List Char) : List Char := l.dropWhile isWsChar

/-- Model of `String.prototype.trimEnd`. -/
def trimEnd (l : List Char) : List Char := (l.reverse.dropWhile isWsChar).reverse

/-- Model of `String.prototype.trim`. -/
def trimWs (l : List Char) : List Char := trimEnd (trimStart l)

/-- Substring test: does `needle` occur contiguously inside `hay`?
Models `String.prototype.includes` / the `[^}]*"tool"[^}]*` requirement. -/
def containsSub (needle : List Char) : List Char → Bool
  | [] => decide (needle = [])
  | c :: t => needle.isPrefixOf (c :: t) || containsSub needle t

/-- Prepend a character to the first part of a part list (helper for the
splitters; a part list is never empty). -/
def consHd (c : Char) : List (List Char) → List (List Char)
  | [] => [[c]]
  | p :: ps => (c :: p) :: ps

/-- Model of `str.split('\n')`. -/
def splitLines : List Char → List (List Char)
  | [] => [[]]
  | c :: rest => if c = '\n' then [] :: splitLines rest else consHd c (splitLines rest)

/-- Model of `str.split('\n\n')` — the SSE frame delimiter split used by
`useSSEChat.sendMessage` (leftmost, non-overlapping). -/
def splitNN : List Char → List (List Char)
  | [] => [[]]
  | [c] => [[c]]
  | c1 :: c2 :: rest =>
    if c1 = '\n' ∧ c2 = '\n' then [] :: splitNN rest
    else consHd c1 (splitNN (c2 :: rest))

/-- Rejoin the parts of a `'\n\n'` split. -/
def joinNN : List (List Char) → List Char
  | [] => []
  | [p] => p
  | p :: ps => p ++ '\n' :: '\n' :: joinNN ps

theorem consHd_ne_nil (c : Char) (ps : List (List Char)) : consHd c ps ≠ [] := by
  cases ps <;> simp [consHd]

theorem splitNN_ne_nil (s : List Char) : splitNN s ≠ [] := by
  induction s using splitNN.induct with
  | case1 => simp [splitNN]
  | case2 c => simp [splitNN]
  | case3 c1 c2 rest h ih => simp only [splitNN, if_pos h]; simp
  | case4 c1 c2 rest h ih => simp only [splitNN, if_neg h]; exact consHd_ne_nil _ _

theorem splitLines_ne_nil (s : List Char) : splitLines s ≠ [] := by
  induction s with
  | nil => simp [splitLines]
  | cons c rest ih =>
    by_cases h : c = '\n'
    · simp [splitLines, h]
    · simp only [splitLines, if_neg h]; exact consHd_ne_nil _ _

/-- Splitting then rejoining is the identity: the complete frames plus the
trailing remainder together reconstruct the byte stream. -/
theorem joinNN_splitNN (s : List Char) : joinNN (splitNN s) = s := by
  induction s using splitNN.induct with
  | case1 => simp [splitNN, joinNN]
  | case2 c => simp [splitNN, joinNN]
  | case3 c1 c2 rest h ih =>
    obtain ⟨h1, h2⟩ := h
    subst h1; subst h2
    simp only [splitNN, if_pos (⟨rfl, rfl⟩ : '\n' = '\n' ∧ '\n' = '\n')]
    have hne := splitNN_ne_nil rest
    cases hps : splitNN rest with
    | nil => exact absurd hps hne
    | cons p ps =>
      rw [hps] at ih
      simp [joinNN, ih]
  | case4 c1 c2 rest h ih =>
    simp only [splitNN, if_neg h]
    have hne := splitNN_ne_nil (c2 :: rest)
    cases hps : splitNN (c2 :: rest) with
    | nil => exact absurd hps hne
    | cons p ps =>
      rw [hps] at ih
      cases ps with
      | nil => simp [consHd, joinNN] at ih ⊢; exact ih
      | cons q qs => simp [consHd, joinNN] at ih ⊢; exact ih

theorem splitNN_singleton {s p : List Char} (h : splitNN s = [p]) : p = s := by
  have := joinNN_splitNN s
  rw [h] at this
  simpa [joinNN] using this

/-- If a part list is nonempty, `getLastD` ignores a freshly consed head. -/
theorem getLastD_cons_of_ne_nil {α : Type} (a : α) {l : List α} (h : l ≠ []) (d : α) :
    (a :: l).getLastD d = l.getLastD d := by
  cases l with
  | nil => exact absurd rfl h
  | cons x xs => rfl

theorem dropLast_cons_of_ne_nil {α : Type} (a : α) {l : List α} (h : l ≠ []) :
    (a :: l).dropLast = a :: l.dropLast := by
  cases l with
  | nil => exact absurd rfl h
  | cons x xs => rfl

theorem getLastD_single {α : Type} (a d : α) : ([a]).getLastD d = a := rfl

theorem dropLast_single {α : Type} (a : α) : ([a]).dropLast = [] := rfl

/-- A cons that is not a frame delimiter distributes over the split. -/
theorem splitNN_cons (c : Char) (s : List Char)
    (h : ¬(c = '\n' ∧ s.head? = some '\n')) :
    splitNN (c :: s) = consHd c (splitNN s) := by
  cases s with
  | nil => simp [splitNN, consHd]
  | cons c2 rest =>
    have : ¬(c = '\n' ∧ c2 = '\n') := by
      intro ⟨h1, h2⟩; exact h ⟨h1, by simp [h2]⟩
    simp [splitNN, this]

/-- Shape of the first part: it is either empty (the input begins with a
delimiter half) or begins with the first input character. -/
theorem splitNN_head_shape (c : Char) (s : List Char) {p : List Char}
    {ps : List (List Char)} (h : splitNN (c :: s) = p :: ps) :
    p = [] ∧ c = '\n' ∨ ∃ q, p = c :: q := by
  cases s with
  | nil =>
    simp [splitNN] at h
    exact Or.inr ⟨[], h.1.symm⟩
  | cons c2 rest =>
    by_cases hd : c = '\n' ∧ c2 = '\n'
    · simp [splitNN, hd] at h
      exact Or.inl ⟨h.1, hd.1⟩
    · simp only [splitNN, if_neg hd] at h
      cases hps : splitNN (c2 :: rest) with
      | nil => exact absurd hps (splitNN_ne_nil _)
      | cons q qs =>
        rw [hps] at h
        simp [consHd] at h
        exact Or.inr ⟨q, h.1.symm⟩

/-- Key incrementality lemma for SSE frame reassembly: splitting `a ++ b`
yields the complete parts of `a` followed by the split of `a`'s trailing
remainder prepended to `b`.  This is what makes chunk-at-a-time processing
agree with whole-stream processing. -/
theorem splitNN_append (a b : List Char) :
    splitNN (a ++ b) = (splitNN a).dropLast ++ splitNN ((splitNN a).getLastD [] ++ b) := by
  induction a using splitNN.induct with
  | case1 => simp [splitNN]
  | case2 c => simp [splitNN]
  | case3 c1 c2 rest h ih =>
    obtain ⟨h1, h2⟩ := h
    subst h1; subst h2
    have hsplit : splitNN ('\n' :: '\n' :: rest) = [] :: splitNN rest := by
      simp [splitNN]
    have hne := splitNN_ne_nil rest
    rw [List.cons_append, List.cons_append, hsplit]
    have hlhs : splitNN ('\n' :: '\n' :: (rest ++ b)) = [] :: splitNN (rest ++ b) := by
      simp [splitNN]
    rw [hlhs, dropLast_cons_of_ne_nil _ hne, getLastD_cons_of_ne_nil _ hne, ih]
    simp
  | case4 c1 c2 rest h ih =>
    have hsplit : splitNN (c1 :: c2 :: rest) = consHd c1 (splitNN (c2 :: rest)) := by
      simp [splitNN, h]
    have hlhs : splitNN (c1 :: c2 :: (rest ++ b)) = consHd c1 (splitNN (c2 :: rest ++ b)) := by
      simp [splitNN, h]
    rw [List.cons_append, List.cons_append, hlhs, hsplit]
    cases hps : splitNN (c2 :: rest) with
    | nil => exact absurd hps (splitNN_ne_nil _)
    | cons p ps =>
      rw [hps] at ih
      cases ps with
      | nil =>
        -- the split of `c2 :: rest` is a single part, so the right side
        -- collapses to a single whole-string split
        have hhead : ¬(c1 = '\n' ∧ (p ++ b).head? = some '\n') := by
          rcases splitNN_head_shape c2 rest hps with ⟨hpe, hc2⟩ | ⟨q, hq⟩
          · intro ⟨hc1, _⟩; exact h ⟨hc1, hc2⟩
          · intro ⟨hc1, hhd⟩
            rw [hq] at hhd
            simp at hhd
            exact h ⟨hc1, hhd⟩
        have hp1 : consHd c1 [p] = [c1 :: p] := rfl
        rw [ih, dropLast_single, getLastD_single, List.nil_append, hp1,
          dropLast_single, getLastD_single, List.nil_append, List.cons_append,
          splitNN_cons c1 (p ++ b) hhead]
      | cons q qs =>
        have hqs := (List.cons_ne_nil q qs)
        simp only [consHd]
        rw [dropLast_cons_of_ne_nil _ hqs, getLastD_cons_of_ne_nil _ hqs, ih,
          dropLast_cons_of_ne_nil _ hqs, getLastD_cons_of_ne_nil _ hqs]
        simp [consHd]

/-! ## JSON values and a model of JSON.parse

JavaScript numbers are retained as their scaled decimal mantissa (an `Int`),
which is exactly enough to decide JavaScript truthiness (zero test) for the
payloads this pipeline carries. -/

inductive Json where
  | null : Json
  | bool : Bool → Json
  | num : Int → Json
  | str : List Char → Json
  | arr : List Json → Json
  | obj : List (List Char × Json) → Json

/-- JSON whitespace accepted between tokens by `JSON.parse`. -/
def isJsonWs (c : Char) : Bool := c = ' ' || c = '\t' || c = '\n' || c = '\r'

def skipWs (l : List Char) : List Char := l.dropWhile isJsonWs

def hexDigitVal (c : Char) : Option Nat :=
  if '0' ≤ c ∧ c ≤ '9' then some (c.toNat - 48)
  else if 'a' ≤ c ∧ c ≤ 'f' then some (c.toNat - 87)
  else if 'A' ≤ c ∧ c ≤ 'F' then some (c.toNat - 55)
  else none

def escChar (c : Char) : Option Char :=
  if c = '"' then some '"'
  else if c = '\\' then some '\\'
  else if c = '/' then some '/'
  else if c = 'b' then some '\x08'
  else if c = 'f' then some '\x0c'
  else if c = 'n' then some '\n'
  else if c = 'r' then some '\r'
  else if c = 't' then some '\t'
  else none

/-- Body of a JSON string literal, after the opening quote; returns the
decoded characters and the remaining input after the closing quote. -/
def parseStringBody : List Char → Option (List Char × List Char)
  | [] => none
  | '"' :: r => some ([], r)
  | '\\' :: e :: r =>
    if e = 'u' then
      match r with
      | h1 :: h2 :: h3 :: h4 :: r2 =>
        match hexDigitVal h1, hexDigitVal h2, hexDigitVal h3, hexDigitVal h4 with
        | some a, some b, some c, some d =>
          (parseStringBody r2).map
            (fun p => (Char.ofNat (((a * 16 + b) * 16 + c) * 16 + d) :: p.1, p.2))
        | _, _, _, _ => none
      | _ => none
    else
      match escChar e with
      | some ec => (parseStringBody r).map (fun p => (ec :: p.1, p.2))
      | none => none
  | c :: r => (parseStringBody r).map (fun p => (c :: p.1, p.2))

def digitsToNat (ds : List Char) : Nat := ds.foldl (fun n c => n * 10 + (c.toNat - 48)) 0

/-- A JSON number token; the value is kept as its scaled mantissa. -/
def parseNum (s : List Char) : Option (Json × List Char) :=
  let st := match s with | '-' :: r => (true, r) | _ => (false, s)
  let ds := st.2.takeWhile Char.isDigit
  if ds.isEmpty then none else
  let r1 := st.2.drop ds.length
  let fracRes : Option (List Char × List Char) :=
    match r1 with
    | '.' :: rr =>
      let f := rr.takeWhile Char.isDigit
      if f.isEmpty then none else some (f, rr.drop f.length)
    | _ => some ([], r1)
  match fracRes with
  | none => none
  | some (fds, r2) =>
    let expRes : Option (List Char) :=
      match r2 with
      | e :: rr =>
        if e = 'e' ∨ e = 'E' then
          let rr2 := match rr with | '+' :: z => z | '-' :: z => z | _ => rr
          let eds := rr2.takeWhile Char.isDigit
          if eds.isEmpty then none else some (rr2.drop eds.length)
        else some r2
      | [] => some r2
    match expRes with
    | none => none
    | some r3 =>
      let m : Int := Int.ofNat (digitsToNat (ds ++ fds))
      some (.num (if st.1 then -m else m), r3)

mutual

/-- Fuel-driven recursive-descent JSON value reader (model of `JSON.parse`);
the fuel passed by `jsonParse` is always sufficient. -/
def parseVal : Nat → List Char → Option (Json × List Char)
  | 0, _ => none
  | fuel + 1, s =>
    match skipWs s with
    | 'n' :: 'u' :: 'l' :: 'l' :: r => some (.null, r)
    | 't' :: 'r' :: 'u' :: 'e' :: r => some (.bool true, r)
    | 'f' :: 'a' :: 'l' :: 's' :: 'e' :: r => some (.bool false, r)
    | '"' :: r => (parseStringBody r).map (fun p => (.str p.1, p.2))
    | '[' :: r =>
      (match skipWs r with
      | ']' :: r2 => some (.arr [], r2)
      | _ => (parseElems fuel r).map (fun p => (.arr p.1, p.2)))
    | '\x7b' :: r =>
      (match skipWs r with
      | '\x7d' :: r2 => some (.obj [], r2)
      | _ => (parseMembers fuel r).map (fun p => (.obj p.1, p.2)))
    | t => parseNum t

def parseElems : Nat → List Char → Option (List Json × List Char)
  | 0, _ => none
  | fuel + 1, s =>
    match parseVal fuel s with
    | none => none
    | some (v, r) =>
      match skipWs r with
      | ',' :: r2 => (parseElems fuel r2).map (fun p => (v :: p.1, p.2))
      | ']' :: r2 => some ([v], r2)
      | _ => none

def parseMembers : Nat → List Char → Option (List (List Char × Json) × List Char)
  | 0, _ => none
  | fuel + 1, s =>
    match skipWs s with
    | '"' :: r =>
      match parseStringBody r with
      | none => none
      | some (key, r1) =>
        match skipWs r1 with
        | ':' :: r2 =>
          (match parseVal fuel r2 with
          | none => none
          | some (v, r3) =>
            match skipWs r3 with
            | ',' :: r4 => (parseMembers fuel r4).map (fun p => ((key, v) :: p.1, p.2))
            | '\x7d' :: r4 => some ([(key, v)], r4)
            | _ => none)
        | _ => none
    | _ => none

end

/-- Model of `JSON.parse`: a full-input parse returning `none` exactly when
`JSON.parse` would throw. -/
def jsonParse (s : List Char) : Option Json :=
  match parseVal (2 * s.length + 2) s with
  | some (v, r) => if (skipWs r).isEmpty then some v else none
  | none => none

/-- JavaScript truthiness of a JSON value. -/
def truthy : Json → Bool
  | .null => false
  | .bool b => b
  | .num n => decide (n ≠ 0)
  | .str s => !s.isEmpty
  | .arr _ => true
  | .obj _ => true

/-- Property access `v.k` on a parsed value: only objects have fields, and
(as with duplicate keys in `JSON.parse` and object spread) the last
occurrence of a key wins. -/
def jGet (v : Json) (k : List Char) : Option Json :=
  match v with
  | .obj fields => ((fields.filter (fun p => p.1 == k)).getLast?).map Prod.snd
  | _ => none

def intToChars (n : Int) : List Char := (toString n).toList

/-- JavaScript string coercion as used in template literals such as
`[Error: ...]` (`undefined` for a missing property; arrays are not coerced
by any input this pipeline produces and are mapped to the empty string). -/
def jsToTemplate : Option Json → List Char
  | none => "undefined".toList
  | some .null => "null".toList
  | some (.bool true) => "true".toList
  | some (.bool false) => "false".toList
  | some (.num n) => intToChars n
  | some (.str s) => s
  | some (.arr _) => "".toList
  | some (.obj _) => "[object Object]".toList

/-! ## Playback scheduler (`useStreamingVoice.js`)

State of the hook: `audioQueueRef` (`queue`), `currentAudioRef` (`current`),
`isProcessingRef` (`processing`), `isSpeaking` (`speaking`), `isMuted`
(`muted`).  `pending` records that a 200 ms `setTimeout(playNextInQueue)`
callback is outstanding after a clip ended or errored.  `started` is a
history variable (not present in the code): the clips handed to an `Audio`
element for playback, in the order playback began. -/

structure Sched (α : Type) where
  muted : Bool
  queue : List α
  current : Option α
  processing : Bool
  speaking : Bool
  pending : Bool
  started : List α

def initSched {α : Type} : Sched α :=
  ⟨false, [], none, false, false, false, []⟩

/-- Model of `playNextInQueue`: stop when the queue is empty, otherwise shift the
head of the queue and start playing it. -/
def playNextInQueue {α : Type} (s : Sched α) : Sched α :=
  match s.queue with
  | [] => { s with current := none, processing := false, speaking := false }
  | a :: rest =>
    { s with queue := rest, current := some a, speaking := true,
             started := s.started ++ [a] }

/-- Model of `playAudio(audioBase64)`: skipped entirely when muted or when the audio
data is empty/absent (`none`); otherwise push onto the queue and start queue
processing unless it is already running. -/
def playAudio {α : Type} (s : Sched α) (audio : Option α) : Sched α :=
  if s.muted then s
  else
    match audio with
    | none => s
    | some a =>
      let s1 := { s with queue := s.queue ++ [a] }
      if s1.processing then s1
      else playNextInQueue { s1 with processing := true }

/-- Model of `stopSpeaking`: when muted it only unmutes; otherwise it stops and
releases the active clip, clears the queue, resets processing state and
mutes.  An outstanding advance timer is not cancelled. -/
def stopSpeaking {α : Type} (s : Sched α) : Sched α :=
  if s.muted then { s with muted := false }
  else
    { s with current := none, queue := [], processing := false,
             speaking := false, muted := true }

/-- The `onended` / `onerror` / `play().catch` handlers: release the clip
and schedule `playNextInQueue` after the 200 ms settle delay. -/
def clipDone {α : Type} (s : Sched α) : Sched α :=
  match s.current with
  | some _ => { s with current := none, pending := true }
  | none => s

/-- Observable events of the scheduler. -/
inductive SEv (α : Type) where
  | enqueue (audio : Option α)
  | ended
  | errored
  | timer
  | stop
deriving DecidableEq

def SEv.isStop {α : Type} : SEv α → Bool
  | .stop => true
  | _ => false

def schedStep {α : Type} (s : Sched α) : SEv α → Sched α
  | .enqueue a => playAudio s a
  | .ended => clipDone s
  | .errored => clipDone s
  | .timer => if s.pending then playNextInQueue { s with pending := false } else s
  | .stop => stopSpeaking s

def schedRun {α : Type} (s : Sched α) (evs : List (SEv α)) : Sched α :=
  evs.foldl schedStep s

/-- The clips accepted into the scheduler by a sequence of events. -/
def enqueuedOf {α : Type} (evs : List (SEv α)) : List α :=
  evs.filterMap (fun e => match e with | .enqueue (some a) => some a | _ => none)

def optList {α : Type} : Option α → List α
  | some a => [a]
  | none => []

/-- All clips held anywhere in a scheduler state. -/
def clipsOf {α : Type} (s : Sched α) : List α :=
  s.queue ++ s.started ++ optList s.current

/-- Scheduler invariant relative to the accepted clips `enq`. -/
def SchedInv {α : Type} (s : Sched α) (enq : List α) : Prop :=
  s.muted = false ∧
  s.started ++ s.queue = enq ∧
  (s.processing = false → s.queue = [] ∧ s.current = none ∧ s.pending = false) ∧
  (∀ a, s.current = some a → s.started.getLast? = some a ∧ s.processing = true) ∧
  (s.pending = true → s.current = none)

theorem initSched_inv {α : Type} : SchedInv (initSched : Sched α) [] := by
  refine ⟨rfl, rfl, fun _ => ⟨rfl, rfl, rfl⟩, fun a ha => by simp [initSched] at ha,
    fun h => rfl⟩

theorem enqueuedOf_single_some {α : Type} (a : α) :
    enqueuedOf [SEv.enqueue (some a)] = [a] := rfl

theorem enqueuedOf_cons {α : Type} (e : SEv α) (evs : List (SEv α)) :
    enqueuedOf (e :: evs) = enqueuedOf [e] ++ enqueuedOf evs := by
  cases e with
  | enqueue a => cases a <;> rfl
  | ended => rfl
  | errored => rfl
  | timer => rfl
  | stop => rfl

theorem schedStep_inv {α : Type} {s : Sched α} {enq : List α} (h : SchedInv s enq)
    {e : SEv α} (hne : e.isStop = false) :
    SchedInv (schedStep s e) (enq ++ enqueuedOf [e]) := by
  obtain ⟨hm, hq, hp, hc, hpd⟩ := h
  cases e with
  | enqueue a =>
    cases a with
    | none =>
      have hstep : schedStep s (SEv.enqueue none) = s := by
        simp [schedStep, playAudio, hm]
      rw [hstep, show enq ++ enqueuedOf [SEv.enqueue (none : Option α)] = enq by
        simp [enqueuedOf]]
      exact ⟨hm, hq, hp, hc, hpd⟩
    | some a =>
      rw [show enq ++ enqueuedOf [SEv.enqueue (some a)] = enq ++ [a] by
        simp [enqueuedOf]]
      by_cases hproc : s.processing = true
      · have hstep : schedStep s (SEv.enqueue (some a)) =
            { s with queue := s.queue ++ [a] } := by
          simp [schedStep, playAudio, hm, hproc]
        rw [hstep]
        refine ⟨hm, ?_, ?_, ?_, hpd⟩
        · show s.started ++ (s.queue ++ [a]) = enq ++ [a]
          rw [← List.append_assoc, hq]
        · intro hf
          change s.processing = false at hf
          rw [hproc] at hf
          cases hf
        · intro b hb; exact hc b hb
      · have hproc' : s.processing = false := by
          cases hv : s.processing
          · rfl
          · exact absurd hv hproc
        obtain ⟨hq0, hc0, hpd0⟩ := hp hproc'
        have hstep : schedStep s (SEv.enqueue (some a)) =
            { s with queue := [], current := some a, processing := true,
                     speaking := true, started := s.started ++ [a] } := by
          simp [schedStep, playAudio, hm, hproc', playNextInQueue, hq0]
        rw [hstep]
        refine ⟨hm, ?_, ?_, ?_, ?_⟩
        · show (s.started ++ [a]) ++ [] = enq ++ [a]
          rw [hq0, List.append_nil] at hq
          rw [List.append_nil, hq]
        · intro hf; cases hf
        · intro b hb
          obtain rfl : a = b := by simpa using hb
          exact ⟨by simp [List.getLast?_concat], rfl⟩
        · intro hf
          change s.pending = true at hf
          rw [hpd0] at hf
          cases hf
  | ended =>
    rw [show enq ++ enqueuedOf [(SEv.ended : SEv α)] = enq by simp [enqueuedOf]]
    cases hcur : s.current with
    | none =>
      have hstep : schedStep s SEv.ended = s := by simp [schedStep, clipDone, hcur]
      rw [hstep]; exact ⟨hm, hq, hp, hc, hpd⟩
    | some c =>
      have hproc := (hc c hcur).2
      have hstep : schedStep s SEv.ended =
          { s with current := none, pending := true } := by
        simp [schedStep, clipDone, hcur]
      rw [hstep]
      refine ⟨hm, hq, ?_, ?_, fun _ => rfl⟩
      · intro hf
        change s.processing = false at hf
        rw [hproc] at hf
        cases hf
      · intro b hb; cases hb
  | errored =>
    rw [show enq ++ enqueuedOf [(SEv.errored : SEv α)] = enq by simp [enqueuedOf]]
    cases hcur : s.current with
    | none =>
      have hstep : schedStep s SEv.errored = s := by simp [schedStep, clipDone, hcur]
      rw [hstep]; exact ⟨hm, hq, hp, hc, hpd⟩
    | some c =>
      have hproc := (hc c hcur).2
      have hstep : schedStep s SEv.errored =
          { s with current := none, pending := true } := by
        simp [schedStep, clipDone, hcur]
      rw [hstep]
      refine ⟨hm, hq, ?_, ?_, fun _ => rfl⟩
      · intro hf
        change s.processing = false at hf
        rw [hproc] at hf
        cases hf
      · intro b hb; cases hb
  | timer =>
    rw [show enq ++ enqueuedOf [(SEv.timer : SEv α)] = enq by simp [enqueuedOf]]
    by_cases hpend : s.pending = true
    · have hcur := hpd hpend
      have hproc : s.processing = true := by
        cases hv : s.processing
        · have := (hp hv).2.2
          rw [hpend] at this; cases this
        · rfl
      cases hqv : s.queue with
      | nil =>
        have hstep : schedStep s SEv.timer =
            { s with pending := false, current := none, processing := false,
                     speaking := false } := by
          simp [schedStep, hpend, playNextInQueue, hqv]
        rw [hstep]
        refine ⟨hm, ?_, ?_, ?_, ?_⟩
        · show s.started ++ s.queue = enq
          exact hq
        · intro _
          exact ⟨hqv, rfl, rfl⟩
        · intro b hb; cases hb
        · intro hf; cases hf
      | cons a rest =>
        have hstep : schedStep s SEv.timer =
            { s with pending := false, queue := rest, current := some a,
                     speaking := true, started := s.started ++ [a] } := by
          simp [schedStep, hpend, playNextInQueue, hqv]
        rw [hstep]
        refine ⟨hm, ?_, ?_, ?_, ?_⟩
        · show (s.started ++ [a]) ++ rest = enq
          rw [List.append_assoc]
          show s.started ++ a :: rest = enq
          rw [← hqv]
          exact hq
        · intro hf
          change s.processing = false at hf
          rw [hproc] at hf
          cases hf
        · intro b hb
          obtain rfl : a = b := by simpa using hb
          exact ⟨by simp [List.getLast?_concat], hproc⟩
        · intro hf; cases hf
    · have hpend' : s.pending = false := by
        cases hv : s.pending
        · rfl
        · exact absurd hv hpend
      have hstep : schedStep s SEv.timer = s := by simp [schedStep, hpend']
      rw [hstep]; exact ⟨hm, hq, hp, hc, hpd⟩
  | stop => simp [SEv.isStop] at hne

theorem schedRun_inv {α : Type} {evs : List (SEv α)} :
    ∀ {s : Sched α} {enq : List α}, SchedInv s enq →
    (∀ e ∈ evs, e.isStop = false) →
    SchedInv (schedRun s evs) (enq ++ enqueuedOf evs) := by
  induction evs with
  | nil => intro s enq h _; simpa [schedRun, enqueuedOf] using h
  | cons e evs ih =>
    intro s enq h hrest
    have h1 := schedStep_inv h (hrest e (by simp))
    have h2 := ih h1 (fun x hx => hrest x (by simp [hx]))
    rw [show schedRun s (e :: evs) = schedRun (schedStep s e) evs from rfl,
      enqueuedOf_cons, ← List.append_assoc]
    exact h2

/-- Clips can only enter a scheduler state through an accepted enqueue. -/
theorem clipsOf_schedStep_subset {α : Type} (s : Sched α) (e : SEv α) :
    clipsOf (schedStep s e) ⊆ clipsOf s ++ enqueuedOf [e] := by
  cases e with
  | enqueue a =>
    cases a with
    | none =>
      intro x hx
      by_cases hm : s.muted = true <;>
        simp [schedStep, playAudio, hm, enqueuedOf, clipsOf] at hx ⊢ <;> tauto
    | some a =>
      intro x hx
      by_cases hm : s.muted = true
      · simp [schedStep, playAudio, hm, enqueuedOf, clipsOf] at hx ⊢
        tauto
      · by_cases hproc : s.processing = true
        · simp [schedStep, playAudio, hm, hproc, enqueuedOf, clipsOf] at hx ⊢
          tauto
        · have hpf : s.processing = false := by
            cases hv : s.processing
            · rfl
            · exact absurd hv hproc
          cases hqv : s.queue with
          | nil =>
            simp [schedStep, playAudio, hm, hpf, hqv, playNextInQueue, enqueuedOf,
              clipsOf, optList] at hx ⊢
            tauto
          | cons b rest =>
            simp [schedStep, playAudio, hm, hpf, hqv, playNextInQueue, enqueuedOf,
              clipsOf, optList] at hx ⊢
            tauto
  | ended =>
    intro x hx
    cases hcv : s.current <;>
      simp [schedStep, clipDone, hcv, enqueuedOf, clipsOf, optList] at hx ⊢ <;> tauto
  | errored =>
    intro x hx
    cases hcv : s.current <;>
      simp [schedStep, clipDone, hcv, enqueuedOf, clipsOf, optList] at hx ⊢ <;> tauto
  | timer =>
    intro x hx
    by_cases hpend : s.pending = true
    · cases hqv : s.queue with
      | nil =>
        simp [schedStep, hpend, playNextInQueue, hqv, enqueuedOf, clipsOf, optList]
          at hx ⊢
        tauto
      | cons b rest =>
        simp [schedStep, hpend, playNextInQueue, hqv, enqueuedOf, clipsOf, optList]
          at hx ⊢
        tauto
    · have hpf : s.pending = false := by
        cases hv : s.pending
        · rfl
        · exact absurd hv hpend
      simp [schedStep, hpf, enqueuedOf, clipsOf] at hx ⊢
      tauto
  | stop =>
    intro x hx
    by_cases hm : s.muted = true <;>
      simp [schedStep, stopSpeaking, hm, enqueuedOf, clipsOf, optList] at hx ⊢ <;> tauto

theorem clipsOf_schedRun_subset {α : Type} (evs : List (SEv α)) :
    ∀ s : Sched α, clipsOf (schedRun s evs) ⊆ clipsOf s ++ enqueuedOf evs := by
  induction evs with
  | nil => intro s; simp [schedRun, enqueuedOf]
  | cons e evs ih =>
    intro s x hx
    have h1 := ih (schedStep s e) hx
    rw [enqueuedOf_cons, ← List.append_assoc]
    rcases List.mem_append.1 h1 with h | h
    · exact List.mem_append.2 (Or.inl (clipsOf_schedStep_subset s e h))
    · exact List.mem_append.2 (Or.inr h)

theorem mem_enqueuedOf {α : Type} {a : α} {evs : List (SEv α)}
    (h : a ∈ enqueuedOf evs) : SEv.enqueue (some a) ∈ evs := by
  rcases List.mem_filterMap.1 h with ⟨e, he, hfe⟩
  cases e with
  | enqueue o =>
    cases o with
    | none => simp at hfe
    | some b =>
      simp at hfe
      subst hfe
      exact he
  | ended => simp at hfe
  | errored => simp at hfe
  | timer => simp at hfe
  | stop => simp at hfe

/-- C1: Playback Scheduler non-overlap and FIFO invariant.  For every
sequence of `playAudio` calls and clip end/error (and settle-timer)
callbacks, the clips that entered playback followed by the still-queued
clips are exactly the accepted clips in enqueue order (so clips are
dequeued and played in exactly the order they were enqueued, each at most
once); an enqueue arriving while a clip is active never changes the active
clip; and the active clip is always the most recently started one.  At most
one clip is active at any time because the state holds a single optional
active clip (`currentAudioRef` in the source). -/
theorem C1_playback_scheduler_fifo {α : Type} (evs : List (SEv α))
    (hns : ∀ e ∈ evs, e.isStop = false) :
    (schedRun initSched evs).started ++ (schedRun initSched evs).queue = enqueuedOf evs ∧
    (∃ rest, (schedRun initSched evs).started ++ rest = enqueuedOf evs) ∧
    (∀ a x, (schedRun initSched evs).current = some a →
      (schedStep (schedRun initSched evs) (SEv.enqueue x)).current = some a) ∧
    (∀ a, (schedRun initSched evs).current = some a →
      (schedRun initSched evs).started.getLast? = some a) := by
  have hinv := schedRun_inv (initSched_inv (α := α)) hns
  rw [List.nil_append] at hinv
  obtain ⟨hm, hq, hp, hc, hpd⟩ := hinv
  refine ⟨hq, ⟨_, hq⟩, ?_, fun a ha => (hc a ha).1⟩
  intro a x ha
  have hproc := (hc a ha).2
  cases x with
  | none =>
    have hstep : schedStep (schedRun initSched evs) (SEv.enqueue none)
        = schedRun initSched evs := by
      simp [schedStep, playAudio, hm]
    rw [hstep]
    exact ha
  | some b =>
    have hstep : schedStep (schedRun initSched evs) (SEv.enqueue (some b))
        = { schedRun initSched evs with
            queue := (schedRun initSched evs).queue ++ [b] } := by
      simp [schedStep, playAudio, hm, hproc]
    rw [hstep]
    exact ha

theorem C1_playback_scheduler_fifo_witness :
    (schedRun initSched [SEv.enqueue (some 1), SEv.enqueue (some 2), SEv.ended,
        SEv.timer]).started ++
      (schedRun initSched [SEv.enqueue (some 1), SEv.enqueue (some 2), SEv.ended,
        SEv.timer]).queue
      = enqueuedOf [SEv.enqueue (some 1), SEv.enqueue (some 2), SEv.ended, SEv.timer] ∧
    (∃ rest, (schedRun initSched [SEv.enqueue (some 1), SEv.enqueue (some 2), SEv.ended,
        SEv.timer]).started ++ rest
      = enqueuedOf [SEv.enqueue (some 1), SEv.enqueue (some 2), SEv.ended, SEv.timer]) ∧
    (∀ a x, (schedRun initSched [SEv.enqueue (some 1), SEv.enqueue (some 2), SEv.ended,
        SEv.timer]).current = some a →
      (schedStep (schedRun initSched [SEv.enqueue (some 1), SEv.enqueue (some 2),
        SEv.ended, SEv.timer]) (SEv.enqueue x)).current = some a) ∧
    (∀ a, (schedRun initSched [SEv.enqueue (some 1), SEv.enqueue (some 2), SEv.ended,
        SEv.timer]).current = some a →
      (schedRun initSched [SEv.enqueue (some 1), SEv.enqueue (some 2), SEv.ended,
        SEv.timer]).started.getLast? = some (a : Nat)) :=
  C1_playback_scheduler_fifo _ (by decide)

/-- C9: calling `playAudio` while the scheduler is muted, or with
empty/absent audio data, is a no-op on the scheduler state; the skipped
clip is permanently discarded — no later event sequence that does not
re-enqueue it (unmuting via `stopSpeaking` included) can ever place it in
the queue, make it the active clip, or play it. -/
theorem C9_muted_playAudio_noop {α : Type} (s : Sched α) (a : α) (evs : List (SEv α))
    (hm : s.muted = true) (ha : a ∉ clipsOf s)
    (hevs : SEv.enqueue (some a) ∉ evs) :
    schedStep s (SEv.enqueue (some a)) = s ∧
    (∀ t : Sched α, playAudio t none = t) ∧
    a ∉ clipsOf (schedRun (schedStep s (SEv.enqueue (some a))) evs) := by
  have h1 : schedStep s (SEv.enqueue (some a)) = s := by
    simp [schedStep, playAudio, hm]
  refine ⟨h1, ?_, ?_⟩
  · intro t
    by_cases htm : t.muted = true <;> simp [playAudio, htm]
  · rw [h1]
    intro hx
    have hsub := clipsOf_schedRun_subset evs s hx
    rcases List.mem_append.1 hsub with h | h
    · exact ha h
    · exact hevs (mem_enqueuedOf h)

theorem C9_muted_playAudio_noop_witness :
    schedStep (⟨true, [], none, false, false, false, []⟩ : Sched Nat)
        (SEv.enqueue (some 0))
      = (⟨true, [], none, false, false, false, []⟩ : Sched Nat) ∧
    (∀ t : Sched Nat, playAudio t none = t) ∧
    0 ∉ clipsOf (schedRun (schedStep (⟨true, [], none, false, false, false, []⟩ :
        Sched Nat) (SEv.enqueue (some 0)))
      [SEv.stop, SEv.enqueue (some 1), SEv.ended, SEv.timer]) :=
  C9_muted_playAudio_noop _ 0 _ rfl (by decide) (by decide)

/-! ## SSE consumer (`useSSEChat.js`)

The dispatcher mutates the selected chat's message list and, in OpenAI TTS
mode (the wiring in `AppShell.js`), forwards `audio` events to the playback
scheduler's `playAudio`; clips are identified by their audio payload. -/

/-- An attachment pushed by the `molecule` event handler (fields may be
absent when the event payload lacks them). -/
structure SSEAttachment where
  name : Option Json
  smiles : Option Json

/-- One chat message of the selected chat. -/
structure Msg where
  role : List Char
  text : List Char
  attachments : List SSEAttachment

/-- The handlers update `messages[messages.length - 1]` only when it exists
and is an assistant message. -/
def updateLastAssistant (f : Msg → Msg) (msgs : List Msg) : List Msg :=
  match msgs.getLast? with
  | some last =>
    if last.role = "assistant".toList then msgs.dropLast ++ [f last] else msgs
  | none => msgs

/-- Line fold of `parseSSEEvent`: the last `event:` line sets the type, the
last `data:` line sets the payload — parsed JSON, or a raw-string object
when `JSON.parse` fails. -/
def sseLineFold (st : List Char × Option Json) (line : List Char) :
    List Char × Option Json :=
  if ("event:".toList).isPrefixOf line then (trimWs (line.drop 6), st.2)
  else if ("data:".toList).isPrefixOf line then
    let dataStr := trimWs (line.drop 5)
    match jsonParse dataStr with
    | some v => (st.1, some v)
    | none => (st.1, some (.obj [("raw".toList, .str dataStr)]))
  else st

/-- The event object dispatched for a frame: the declared type together
with the payload's own fields (later fields win, as with object spread). -/
def mkSSEEvent (et : List Char) (d : Json) : Json :=
  .obj (("type".toList, .str et) :: (match d with | .obj fs => fs | _ => []))

/-- Model of `parseSSEEvent(eventBlock)`: `none` (frame not dispatched) exactly when
no truthy data value was produced. -/
def parseSSEEvent (block : List Char) : Option Json :=
  let r := (splitLines block).foldl sseLineFold ("message".toList, none)
  match r.2 with
  | some d => if truthy d then some (mkSSEEvent r.1 d) else none
  | none => none

/-- State acted on by the dispatcher: the selected chat's messages and the
playback scheduler. -/
abbrev ClientState := List Msg × Sched Json

/-- The switch body of `handleSSEEvent`, by event name. -/
def handleByName (t : List Char) (ev : Json) (st : ClientState) : ClientState :=
  if t = "text".toList then
    let content := match jGet ev "content".toList with
      | none => []
      | some v => if truthy v then jsToTemplate (some v) else []
    (updateLastAssistant (fun m => { m with text := m.text ++ content }) st.1, st.2)
  else if t = "audio".toList then
    match jGet ev "audio_base64".toList with
    | some v => if truthy v then (st.1, playAudio st.2 (some v)) else st
    | none => st
  else if t = "molecule".toList then
    (updateLastAssistant
      (fun m => { m with attachments :=
        m.attachments ++ [⟨jGet ev "name".toList, jGet ev "smiles".toList⟩] }) st.1,
     st.2)
  else if t = "complete".toList ∨ t = "done".toList then st
  else if t = "error".toList then
    let emsg := "\n[Error: ".toList ++ jsToTemplate (jGet ev "message".toList)
      ++ "]".toList
    (updateLastAssistant (fun m => { m with text := m.text ++ emsg }) st.1, st.2)
  else st

/-- Model of `handleSSEEvent(event, ...)` with the AppShell's OpenAI-mode wiring of
`onAudioEvent` to `playAudio`: switch on `event.type` (non-string or absent
types match no case and change nothing). -/
def handleSSEEvent (ev : Json) (st : ClientState) : ClientState :=
  match jGet ev "type".toList with
  | some (.str t) => handleByName t ev st
  | _ => st

/-- The dispatch loop over the events of one or more frames. -/
def dispatchAll (evs : List Json) (st : ClientState) : ClientState :=
  evs.foldl (fun s e => handleSSEEvent e s) st

/-- State of the `sendMessage` read loop: the carry buffer and the events
dispatched so far (those actually passed to `handleSSEEvent`). -/
@[ext]
structure SSELoop where
  buffer : List Char
  dispatched : List Json

def initSSELoop : SSELoop := ⟨[], []⟩

/-- One iteration of the read loop on one transport chunk: split the carry
buffer plus chunk on blank lines, keep the trailing incomplete frame, and
dispatch every complete, non-blank frame that parses. -/
def sseStep (st : SSELoop) (chunk : List Char) : SSELoop :=
  let parts := splitNN (st.buffer ++ chunk)
  let evs := parts.dropLast.filterMap
    (fun blk => if (trimWs blk).isEmpty then none else parseSSEEvent blk)
  ⟨parts.getLastD [], st.dispatched ++ evs⟩

def sseRun (chunks : List (List Char)) : SSELoop :=
  chunks.foldl sseStep initSSELoop

theorem getLastD_append_of_ne_nil {α : Type} (xs : List α) {ys : List α}
    (h : ys ≠ []) (d : α) : (xs ++ ys).getLastD d = ys.getLastD d := by
  induction xs with
  | nil => rfl
  | cons x xs ih =>
    have hne : xs ++ ys ≠ [] := fun hc => h (List.append_eq_nil.1 hc).2
    rw [List.cons_append, getLastD_cons_of_ne_nil _ hne, ih]

theorem dropLast_append_of_ne_nil {α : Type} (xs : List α) {ys : List α}
    (h : ys ≠ []) : (xs ++ ys).dropLast = xs ++ ys.dropLast := by
  induction xs with
  | nil => rfl
  | cons x xs ih =>
    have hne : xs ++ ys ≠ [] := fun hc => h (List.append_eq_nil.1 hc).2
    rw [List.cons_append, dropLast_cons_of_ne_nil _ hne, ih, List.cons_append]

/-- Two loop iterations on consecutive chunks behave exactly like one
iteration on their concatenation. -/
theorem sseStep_append (st : SSELoop) (c1 c2 : List Char) :
    sseStep (sseStep st c1) c2 = sseStep st (c1 ++ c2) := by
  have hP2 := splitNN_ne_nil ((splitNN (st.buffer ++ c1)).getLastD [] ++ c2)
  have hsplit : splitNN (st.buffer ++ (c1 ++ c2)) =
      (splitNN (st.buffer ++ c1)).dropLast
        ++ splitNN ((splitNN (st.buffer ++ c1)).getLastD [] ++ c2) := by
    rw [← List.append_assoc]
    exact splitNN_append (st.buffer ++ c1) c2
  refine SSELoop.ext ?_ ?_
  · show (splitNN ((splitNN (st.buffer ++ c1)).getLastD [] ++ c2)).getLastD []
        = (splitNN (st.buffer ++ (c1 ++ c2))).getLastD []
    rw [hsplit, getLastD_append_of_ne_nil _ hP2]
  · show (st.dispatched ++ (splitNN (st.buffer ++ c1)).dropLast.filterMap
        (fun blk => if (trimWs blk).isEmpty then none else parseSSEEvent blk))
        ++ (splitNN ((splitNN (st.buffer ++ c1)).getLastD [] ++ c2)).dropLast.filterMap
        (fun blk => if (trimWs blk).isEmpty then none else parseSSEEvent blk)
       = st.dispatched ++ (splitNN (st.buffer ++ (c1 ++ c2))).dropLast.filterMap
        (fun blk => if (trimWs blk).isEmpty then none else parseSSEEvent blk)
    rw [hsplit, dropLast_append_of_ne_nil _ hP2, List.filterMap_append,
      List.append_assoc]

theorem sseRun_cons (cs : List (List Char)) :
    ∀ (st : SSELoop) (c : List Char),
    List.foldl sseStep st (c :: cs) = sseStep st (c ++ cs.flatten) := by
  induction cs with
  | nil => intro st c; simp [List.foldl]
  | cons c2 cs ih =>
    intro st c
    show List.foldl sseStep (sseStep st c) (c2 :: cs) = _
    rw [ih (sseStep st c) c2, sseStep_append, List.flatten_cons]

/-- C3: frame reassembly and in-order dispatch.  For every way the framed
stream is split into transport chunks, the read loop dispatches exactly the
parseable complete blank-line-terminated frames of the concatenated stream,
each handled exactly once and in stream order, and retains exactly the
trailing incomplete frame in the carry buffer (first conjunct: chunking
invariance; second: what a single-shot run produces; third: the complete
frames plus the retained trailing remainder reconstruct the stream). -/
theorem C3_frame_reassembly_in_order :
    (∀ chunks : List (List Char), sseRun chunks = sseStep initSSELoop chunks.flatten) ∧
    (∀ s : List Char,
      (sseStep initSSELoop s).dispatched
        = (splitNN s).dropLast.filterMap
            (fun blk => if (trimWs blk).isEmpty then none else parseSSEEvent blk) ∧
      (sseStep initSSELoop s).buffer = (splitNN s).getLastD []) ∧
    (∀ s : List Char, joinNN (splitNN s) = s) := by
  refine ⟨?_, ?_, joinNN_splitNN⟩
  · intro chunks
    cases chunks with
    | nil => rfl
    | cons c cs => exact sseRun_cons cs initSSELoop c
  · intro s
    constructor
    · show [] ++ _ = _
      rw [List.nil_append]
      rfl
    · rfl

theorem updateLastAssistant_concat (f : Msg → Msg) (pre : List Msg) (last : Msg)
    (h : last.role = "assistant".toList) :
    updateLastAssistant f (pre ++ [last]) = pre ++ [f last] := by
  unfold updateLastAssistant
  rw [List.getLast?_concat]
  simp [h, List.dropLast_concat]

/-- A clip-end, clip-error or settle-timer event conserves the clips that
are started or queued (it can move a clip from the queue into playback but
never drops or reorders one). -/
theorem schedStep_conserves {α : Type} (s : Sched α) {e : SEv α}
    (h : e = SEv.ended ∨ e = SEv.errored ∨ e = SEv.timer) :
    (schedStep s e).started ++ (schedStep s e).queue = s.started ++ s.queue := by
  rcases h with rfl | rfl | rfl
  · cases hcv : s.current <;> simp [schedStep, clipDone, hcv]
  · cases hcv : s.current <;> simp [schedStep, clipDone, hcv]
  · by_cases hpend : s.pending = true
    · cases hqv : s.queue with
      | nil => simp [schedStep, hpend, playNextInQueue, hqv]
      | cons b rest => simp [schedStep, hpend, playNextInQueue, hqv]
    · have hpf : s.pending = false := by
        cases hv : s.pending
        · rfl
        · exact absurd hv hpend
      simp [schedStep, hpf]

theorem schedRun_conserves {α : Type} (evs : List (SEv α))
    (h : ∀ e ∈ evs, e = SEv.ended ∨ e = SEv.errored ∨ e = SEv.timer) :
    ∀ s : Sched α,
    (schedRun s evs).started ++ (schedRun s evs).queue = s.started ++ s.queue := by
  induction evs with
  | nil => intro s; rfl
  | cons e evs ih =>
    intro s
    show (schedRun (schedStep s e) evs).started ++ (schedRun (schedStep s e) evs).queue
        = s.started ++ s.queue
    rw [ih (fun x hx => h x (by simp [hx])) (schedStep s e),
      schedStep_conserves s (h e (by simp))]

/-- C6: dispatching an `error` event appends exactly the inline
`[Error: ...]` note to the streaming assistant message, leaving all
previously appended text, all other messages and their attachments
unchanged, and leaves the playback scheduler state untouched — in
particular already-enqueued clips still play out in order, as any sequence
of end/error/timer callbacks conserves the started-then-queued clip
order. -/
theorem C6_error_event_preserves_output (pre : List Msg) (last : Msg)
    (sched : Sched Json) (m : List Char)
    (hrole : last.role = "assistant".toList) :
    handleSSEEvent (Json.obj [("type".toList, .str "error".toList),
        ("message".toList, .str m)]) (pre ++ [last], sched)
      = (pre ++ [{ last with text := last.text ++
          ("\n[Error: ".toList ++ m ++ "]".toList) }], sched) ∧
    (∀ evs : List (SEv Json),
      (∀ e ∈ evs, e = SEv.ended ∨ e = SEv.errored ∨ e = SEv.timer) →
      (schedRun sched evs).started ++ (schedRun sched evs).queue
        = sched.started ++ sched.queue) := by
  constructor
  · have hev : handleSSEEvent (Json.obj [("type".toList, .str "error".toList),
        ("message".toList, .str m)]) (pre ++ [last], sched)
        = (updateLastAssistant (fun mm => { mm with text := mm.text ++
            ("\n[Error: ".toList ++ m ++ "]".toList) }) (pre ++ [last]), sched) := rfl
    rw [hev, updateLastAssistant_concat _ _ _ hrole]
  · intro evs h
    exact schedRun_conserves evs h sched

theorem C6_error_event_preserves_output_witness :
    handleSSEEvent (Json.obj [("type".toList, .str "error".toList),
        ("message".toList, .str "boom".toList)])
      ([⟨"assistant".toList, "Benzene".toList, []⟩], (initSched : Sched Json))
      = ([⟨"assistant".toList, ("Benzene".toList ++
          ("\n[Error: ".toList ++ "boom".toList ++ "]".toList)), []⟩],
         (initSched : Sched Json)) ∧
    (∀ evs : List (SEv Json),
      (∀ e ∈ evs, e = SEv.ended ∨ e = SEv.errored ∨ e = SEv.timer) →
      (schedRun (initSched : Sched Json) evs).started
          ++ (schedRun (initSched : Sched Json) evs).queue
        = (initSched : Sched Json).started ++ (initSched : Sched Json).queue) :=
  C6_error_event_preserves_output [] _ _ _ rfl

/-! ## Characterization of `parseSSEEvent` (claims C8, C10) -/

def isDataLine (l : List Char) : Bool := ("data:".toList).isPrefixOf l

/-- The value a `data:` line contributes: its parsed JSON, or the
raw-string fallback object when the parse fails. -/
def lineDataValue (l : List Char) : Json :=
  match jsonParse (trimWs (l.drop 5)) with
  | some v => v
  | none => .obj [("raw".toList, .str (trimWs (l.drop 5)))]

/-- The value contributed by the last `data:` line of a block, if any. -/
def lastDataValue (block : List Char) : Option Json :=
  (((splitLines block).filter isDataLine).getLast?).map lineDataValue

theorem not_event_of_data {l : List Char} (h : isDataLine l = true) :
    ("event:".toList).isPrefixOf l = false := by
  cases l with
  | nil => simp [isDataLine, List.isPrefixOf] at h
  | cons c cs =>
    simp only [isDataLine] at h
    have hc : 'd' = c := by
      by_contra hne
      simp [List.isPrefixOf, beq_iff_eq, hne] at h
    subst hc
    simp [List.isPrefixOf]

theorem bool_eq_false_not_true {b : Bool} (h : b = false) : ¬ b = true := by
  rw [h]
  exact fun hc => Bool.noConfusion hc

theorem sseLineFold_data_none {st : List Char × Option Json} {l : List Char}
    (h : isDataLine l = false) : (sseLineFold st l).2 = st.2 := by
  have hd : ¬ ("data:".toList).isPrefixOf l = true := bool_eq_false_not_true h
  unfold sseLineFold
  by_cases he : ("event:".toList).isPrefixOf l = true
  · rw [if_pos he]
  · rw [if_neg he, if_neg hd]

theorem sseLineFold_data_some {st : List Char × Option Json} {l : List Char}
    (h : isDataLine l = true) : (sseLineFold st l).2 = some (lineDataValue l) := by
  have hdp : ("data:".toList).isPrefixOf l = true := h
  have hev : ¬ ("event:".toList).isPrefixOf l = true :=
    bool_eq_false_not_true (not_event_of_data h)
  unfold sseLineFold lineDataValue
  rw [if_neg hev, if_pos hdp]
  cases hj : jsonParse (trimWs (l.drop 5)) <;> simp only [hj]

/-- The data component of the line fold is exactly the value of the last
`data:` line (the initial/default value surviving only when there is
none). -/
theorem foldl_sseLineFold_data (lines : List (List Char)) :
    ∀ st : List Char × Option Json,
    (lines.foldl sseLineFold st).2
      = match (lines.filter isDataLine).getLast? with
        | some l => some (lineDataValue l)
        | none => st.2 := by
  induction lines with
  | nil => intro st; rfl
  | cons l ls ih =>
    intro st
    show (ls.foldl sseLineFold (sseLineFold st l)).2 = _
    rw [ih (sseLineFold st l)]
    by_cases hd : isDataLine l = true
    · rw [show (l :: ls).filter isDataLine = l :: ls.filter isDataLine from by
        simp [List.filter_cons, hd]]
      cases hfl : ls.filter isDataLine with
      | nil =>
        simp only [List.getLast?_nil, List.getLast?_singleton]
        exact sseLineFold_data_some hd
      | cons q qs =>
        rw [List.getLast?_cons_cons]
        cases hgl : (q :: qs).getLast? with
        | none =>
          exact absurd (List.getLast?_eq_none_iff.1 hgl) (List.cons_ne_nil q qs)
        | some x => rfl
    · have hd' : isDataLine l = false := by
        cases hv : isDataLine l
        · rfl
        · exact absurd hv hd
      rw [show (l :: ls).filter isDataLine = ls.filter isDataLine from by
        simp [List.filter_cons, hd']]
      rw [sseLineFold_data_none hd']

theorem parseSSEEvent_data (block : List Char) :
    parseSSEEvent block
      = match lastDataValue block with
        | some d =>
          if truthy d then
            some (mkSSEEvent ((splitLines block).foldl sseLineFold
              ("message".toList, none)).1 d)
          else none
        | none => none := by
  unfold parseSSEEvent lastDataValue
  show (match ((splitLines block).foldl sseLineFold ("message".toList, none)).2 with
    | some d =>
      if truthy d then
        some (mkSSEEvent ((splitLines block).foldl sseLineFold
          ("message".toList, none)).1 d)
      else none
    | none => none) = _
  rw [foldl_sseLineFold_data (splitLines block) ("message".toList, none)]
  cases ((splitLines block).filter isDataLine).getLast? <;> rfl

/-- C10 (counterexample): the frame `event: done` / `data: null` contains a
data line, yet `parseSSEEvent` returns no event (`JSON.parse("null")` is
falsy), refuting the claimed "if and only if the frame block contains a
data line". -/
theorem C10_parse_iff_data_line_counterexample :
    parseSSEEvent ("event: done\ndata: null".toList) = none ∧
    (splitLines ("event: done\ndata: null".toList)).filter isDataLine ≠ [] := by
  constructor
  · rfl
  · decide

/-- C10 (amended): the frame parser returns an event iff the block contains
a data line whose contributed value — parsed JSON, or the (always truthy)
raw-string fallback object when the parse fails — is truthy; in particular
a frame with no data line (such as an event-name-only frame) is dropped,
and a frame whose data line is not valid JSON is returned as an event
carrying the raw unparsed string under its declared type. -/
theorem C10_parse_frame_amended :
    (∀ block : List Char,
      (parseSSEEvent block).isSome = true
        ↔ ∃ v, lastDataValue block = some v ∧ truthy v = true) ∧
    (∀ block : List Char,
      (splitLines block).filter isDataLine = [] → parseSSEEvent block = none) ∧
    (∀ ds : List Char, '\n' ∉ ds → jsonParse (trimWs ds) = none →
      parseSSEEvent ("event: molecule\ndata: ".toList ++ ds)
        = some (Json.obj [("type".toList, .str "molecule".toList),
            ("raw".toList, .str (trimWs ds))])) := by
  refine ⟨?_, ?_, ?_⟩
  · intro block
    rw [parseSSEEvent_data]
    cases hlv : lastDataValue block with
    | none => simp
    | some d =>
      cases ht : truthy d <;> simp [ht]
  · intro block h
    rw [parseSSEEvent_data]
    unfold lastDataValue
    rw [h]
    rfl
  · intro ds hnl hbad
    have hblock : ("event: molecule\ndata: ".toList ++ ds)
        = "event: molecule".toList ++ '\n' :: ("data: ".toList ++ ds) := rfl
    have hsl : splitLines ("event: molecule\ndata: ".toList ++ ds)
        = ["event: molecule".toList, "data: ".toList ++ ds] := by
      rw [hblock]
      have hnl2 : splitLines ("data: ".toList ++ ds) = ["data: ".toList ++ ds] := by
        have : ∀ l : List Char, '\n' ∉ l → splitLines l = [l] := by
          intro l
          induction l with
          | nil => intro _; rfl
          | cons c cs ihc =>
            intro hmem
            have hc : ¬ c = '\n' := fun hc => hmem (by simp [hc])
            rw [splitLines, if_neg hc, ihc (fun hm => hmem (by simp [hm]))]
            rfl
        refine this _ ?_
        intro hmem
        rcases List.mem_append.1 hmem with hm | hm
        · revert hm; decide
        · exact hnl hm
      have : ∀ (a : List Char) (b : List Char), '\n' ∉ a →
          splitLines (a ++ '\n' :: b) = a :: splitLines b := by
        intro a
        induction a with
        | nil => intro b _; simp [splitLines]
        | cons c cs ihc =>
          intro b hmem
          have hc : ¬ c = '\n' := fun hc => hmem (by simp [hc])
          rw [List.cons_append, splitLines, if_neg hc,
            ihc b (fun hm => hmem (by simp [hm]))]
          rfl
      rw [this _ _ (by decide), hnl2]
    unfold parseSSEEvent
    rw [hsl]
    show (match (sseLineFold (sseLineFold ("message".toList, none)
        "event: molecule".toList) ("data: ".toList ++ ds)).2 with
      | some d => if truthy d then some (mkSSEEvent (sseLineFold (sseLineFold
          ("message".toList, none) "event: molecule".toList)
          ("data: ".toList ++ ds)).1 d) else none
      | none => none) = _
    have h1 : sseLineFold ("message".toList, none) "event: molecule".toList
        = ("molecule".toList, none) := by rfl
    rw [h1]
    have hpre : ("data:".toList).isPrefixOf ("data: ".toList ++ ds) = true := by
      simp [List.isPrefixOf]
    have hnev : ("event:".toList).isPrefixOf ("data: ".toList ++ ds) = false := by
      simp [List.isPrefixOf]
    have hdrop : ("data: ".toList ++ ds).drop 5 = ' ' :: ds := rfl
    have htrim : trimWs (' ' :: ds) = trimWs ds := by
      unfold trimWs trimStart
      rw [show List.dropWhile isWsChar (' ' :: ds) = List.dropWhile isWsChar ds from by
        simp [List.dropWhile, isWsChar]]
    have h2 : sseLineFold ("molecule".toList, none) ("data: ".toList ++ ds)
        = ("molecule".toList,
           some (.obj [("raw".toList, .str (trimWs ds))])) := by
      unfold sseLineFold
      rw [if_neg (by rw [hnev]; exact fun hc => Bool.noConfusion hc)]
      rw [if_pos (by rw [hpre])]
      rw [hdrop, htrim]
      simp only [hbad]
    rw [h2]
    rfl

/-- The event names `handleSSEEvent` has a case for. -/
def knownEventTypes : List (List Char) :=
  ["text".toList, "audio".toList, "molecule".toList, "complete".toList,
   "done".toList, "error".toList]

theorem handleSSEEvent_eq_byName {ev : Json} {t : List Char} (st : ClientState)
    (ht : jGet ev "type".toList = some (.str t)) :
    handleSSEEvent ev st = handleByName t ev st := by
  unfold handleSSEEvent
  rw [ht]

theorem handleSSEEvent_unknown {ev : Json} {t : List Char} (st : ClientState)
    (ht : jGet ev "type".toList = some (.str t)) (hu : t ∉ knownEventTypes) :
    handleSSEEvent ev st = st := by
  have h1 : ¬ t = "text".toList := fun hc => hu (by rw [hc]; simp [knownEventTypes])
  have h2 : ¬ t = "audio".toList := fun hc => hu (by rw [hc]; simp [knownEventTypes])
  have h3 : ¬ t = "molecule".toList := fun hc => hu (by rw [hc]; simp [knownEventTypes])
  have h4 : ¬ t = "complete".toList := fun hc => hu (by rw [hc]; simp [knownEventTypes])
  have h5 : ¬ t = "done".toList := fun hc => hu (by rw [hc]; simp [knownEventTypes])
  have h6 : ¬ t = "error".toList := fun hc => hu (by rw [hc]; simp [knownEventTypes])
  rw [handleSSEEvent_eq_byName st ht]
  unfold handleByName
  rw [if_neg h1, if_neg h2, if_neg h3, if_neg (fun hc => hc.elim h4 h5), if_neg h6]

theorem updateLastAssistant_id (msgs : List Msg) :
    updateLastAssistant (fun m => m) msgs = msgs := by
  rcases List.eq_nil_or_concat msgs with rfl | ⟨L, b, rfl⟩
  · rfl
  · unfold updateLastAssistant
    simp only [List.concat_eq_append]
    rw [List.getLast?_concat]
    by_cases hr : b.role = "assistant".toList
    · simp [hr, List.dropLast_concat]
    · simp [hr]

/-- C8 (counterexample): the frame `event: molecule` / `data: nope` — whose
data line is not valid JSON — is not skipped: it is returned by the parser
as a raw event and its dispatch changes chat state by appending a degenerate
attachment to the assistant message. -/
theorem C8_dispatcher_robustness_counterexample :
    parseSSEEvent ("event: molecule\ndata: nope".toList)
      = some (Json.obj [("type".toList, .str "molecule".toList),
          ("raw".toList, .str "nope".toList)]) ∧
    ((handleSSEEvent (Json.obj [("type".toList, .str "molecule".toList),
          ("raw".toList, .str "nope".toList)])
        ([⟨"assistant".toList, [], []⟩], (initSched : Sched Json))).1.map
      (fun m => m.attachments.length))
      ≠ (([⟨"assistant".toList, [], []⟩] : List Msg).map
          (fun m => m.attachments.length)) := by
  constructor
  · rfl
  · decide

/-- C8 (amended): a frame with an unknown event name is skipped — it
changes neither chat state nor scheduler state, and its presence in the
dispatch loop changes nothing, so all later frames are still handled.  A
frame whose data line fails to parse as JSON is, however, not skipped: it
is dispatched under its declared type carrying the raw string; for a
`text` frame this leaves the chat unchanged (the missing `content` appends
nothing), while for a `molecule` frame it appends an attachment with absent
name/smiles fields — in either case the loop continues. -/
theorem C8_dispatcher_robustness_amended :
    (∀ (ev : Json) (t : List Char) (st : ClientState),
      jGet ev "type".toList = some (.str t) → t ∉ knownEventTypes →
      handleSSEEvent ev st = st) ∧
    (∀ (es1 es2 : List Json) (ev : Json) (t : List Char) (st : ClientState),
      jGet ev "type".toList = some (.str t) → t ∉ knownEventTypes →
      dispatchAll (es1 ++ ev :: es2) st = dispatchAll (es1 ++ es2) st) ∧
    (∀ (ev : Json) (st : ClientState),
      jGet ev "type".toList = some (.str "text".toList) →
      jGet ev "content".toList = none →
      handleSSEEvent ev st = st) ∧
    (∀ (ev : Json) (pre : List Msg) (last : Msg) (sched : Sched Json),
      jGet ev "type".toList = some (.str "molecule".toList) →
      last.role = "assistant".toList →
      handleSSEEvent ev (pre ++ [last], sched)
        = (pre ++ [{ last with attachments := last.attachments
            ++ [⟨jGet ev "name".toList, jGet ev "smiles".toList⟩] }], sched)) := by
  refine ⟨fun ev t st ht hu => handleSSEEvent_unknown st ht hu, ?_, ?_, ?_⟩
  · intro es1 es2 ev t st ht hu
    unfold dispatchAll
    rw [List.foldl_append, List.foldl_append]
    show List.foldl _ (handleSSEEvent ev (List.foldl _ st es1)) es2 = _
    rw [handleSSEEvent_unknown _ ht hu]
  · intro ev st ht hc
    rw [handleSSEEvent_eq_byName st ht]
    unfold handleByName
    rw [if_pos rfl, hc]
    show (updateLastAssistant (fun m => { m with text := m.text ++ [] }) st.1, st.2)
      = st
    have hfun : (fun m : Msg => { m with text := m.text ++ [] })
        = (fun m : Msg => m) := by
      funext m
      simp
    rw [hfun, updateLastAssistant_id]
  · intro ev pre last sched ht hrole
    rw [handleSSEEvent_eq_byName _ ht]
    unfold handleByName
    rw [if_neg (by decide), if_neg (by decide), if_pos rfl]
    rw [updateLastAssistant_concat _ _ _ hrole]

theorem C8_dispatcher_robustness_amended_witness :
    handleSSEEvent (Json.obj [("type".toList, .str "mystery".toList)])
      ([⟨"assistant".toList, [], []⟩], (initSched : Sched Json))
      = ([⟨"assistant".toList, [], []⟩], (initSched : Sched Json)) ∧
    dispatchAll ([] ++ Json.obj [("type".toList, .str "mystery".toList)]
        :: [Json.obj [("type".toList, .str "error".toList),
             ("message".toList, .str "x".toList)]])
      ([⟨"assistant".toList, [], []⟩], (initSched : Sched Json))
      = dispatchAll ([] ++ [Json.obj [("type".toList, .str "error".toList),
             ("message".toList, .str "x".toList)]])
      ([⟨"assistant".toList, [], []⟩], (initSched : Sched Json)) ∧
    handleSSEEvent (Json.obj [("type".toList, .str "text".toList),
        ("raw".toList, .str "oops".toList)])
      ([⟨"assistant".toList, [], []⟩], (initSched : Sched Json))
      = ([⟨"assistant".toList, [], []⟩], (initSched : Sched Json)) ∧
    handleSSEEvent (Json.obj [("type".toList, .str "molecule".toList),
        ("raw".toList, .str "oops".toList)])
      ([] ++ [(⟨"assistant".toList, [], []⟩ : Msg)], (initSched : Sched Json))
      = ([] ++ [{ (⟨"assistant".toList, [], []⟩ : Msg) with attachments :=
          ([] : List SSEAttachment) ++ [⟨jGet (Json.obj [("type".toList,
            .str "molecule".toList), ("raw".toList, .str "oops".toList)])
              "name".toList,
            jGet (Json.obj [("type".toList, .str "molecule".toList),
              ("raw".toList, .str "oops".toList)]) "smiles".toList⟩] }],
         (initSched : Sched Json)) :=
  ⟨C8_dispatcher_robustness_amended.1 _ "mystery".toList _ rfl (by decide),
   C8_dispatcher_robustness_amended.2.1 [] _ _ "mystery".toList _ rfl (by decide),
   C8_dispatcher_robustness_amended.2.2.1 _ _ rfl rfl,
   C8_dispatcher_robustness_amended.2.2.2 _ [] _ _ rfl rfl⟩

theorem C10_parse_frame_amended_witness :
    ((parseSSEEvent ("event: done\ndata: null".toList)).isSome = true
      ↔ ∃ v, lastDataValue ("event: done\ndata: null".toList) = some v
          ∧ truthy v = true) ∧
    parseSSEEvent ("event: done".toList) = none ∧
    parseSSEEvent ("event: molecule\ndata: ".toList ++ "nope".toList)
      = some (Json.obj [("type".toList, .str "molecule".toList),
          ("raw".toList, .str (trimWs "nope".toList))]) :=
  ⟨C10_parse_frame_amended.1 _,
   C10_parse_frame_amended.2.1 _ (by decide),
   C10_parse_frame_amended.2.2 _ (by decide) rfl⟩

/-! ## Legacy whole-buffer scanner (`useChatStream.js`)

`processStreamChunk` re-scans the accumulated buffer after every chunk:
fenced tool blocks are matched by the global regex
(backtick fence, optional `json`, whitespace, a brace span free of closing
braces that contains the quoted word `tool`, whitespace, closing fence) and
deduplicated by exact matched text in a seen-set; `[EVENT]` markers are
matched by `[EVENT]` followed by a brace span on one line (greedy to the
last closing brace of the line) with no deduplication at all. -/

/-- Try the fenced tool-block regex at the current position; returns
(full match, captured brace group, rest after the match). -/
def toolMatchAt (s : List Char) : Option (List Char × List Char × List Char) :=
  match s with
  | '\x60' :: '\x60' :: '\x60' :: r0 =>
    let r1 := if ("json".toList).isPrefixOf r0 then r0.drop 4 else r0
    let r2 := r1.dropWhile isWsChar
    (match r2 with
    | '\x7b' :: r3 =>
      let inner := r3.takeWhile (fun c => c != '\x7d')
      (match r3.drop inner.length with
      | '\x7d' :: r5 =>
        if containsSub ("\"tool\"".toList) inner then
          match r5.dropWhile isWsChar with
          | '\x60' :: '\x60' :: '\x60' :: r7 =>
            some (s.take (s.length - r7.length), '\x7b' :: (inner ++ ['\x7d']), r7)
          | _ => none
        else none
      | _ => none)
    | _ => none)
  | _ => none

/-- All non-overlapping tool-block matches, left to right (`exec` loop with
a global regex); fuel-driven, with always-sufficient fuel supplied by
`toolMatches`. -/
def toolMatchesF : Nat → List Char → List (List Char × List Char)
  | 0, _ => []
  | fuel + 1, s =>
    match toolMatchAt s with
    | some (full, cap, rest) => (full, cap) :: toolMatchesF fuel rest
    | none =>
      match s with
      | [] => []
      | _ :: t => toolMatchesF fuel t

def toolMatches (s : List Char) : List (List Char × List Char) :=
  toolMatchesF s.length s

/-- Model of `delta.replace(toolFenceRegex, '')`. -/
def stripToolF : Nat → List Char → List Char
  | 0, s => s
  | fuel + 1, s =>
    match toolMatchAt s with
    | some (_, _, rest) => stripToolF fuel rest
    | none =>
      match s with
      | [] => []
      | c :: t => c :: stripToolF fuel t

def stripTool (s : List Char) : List Char := stripToolF s.length s

/-- Try the `[EVENT]` marker regex at the current position; the capture is
the brace span extending greedily to the last closing brace on the line,
with at least one character inside. -/
def eventMatchAt (s : List Char) : Option (List Char × List Char) :=
  match s with
  | '[' :: 'E' :: 'V' :: 'E' :: 'N' :: 'T' :: ']' :: r0 =>
    match r0 with
    | '\x7b' :: r1 =>
      (match (r1.takeWhile (fun c => c != '\n')).reverse.dropWhile
          (fun c => c != '\x7d') with
      | '\x7d' :: midRev =>
        if midRev.isEmpty then none
        else
          some ('\x7b' :: (midRev.reverse ++ ['\x7d']),
                s.drop (9 + midRev.reverse.length))
      | _ => none)
    | _ => none
  | _ => none

def eventMatchesF : Nat → List Char → List (List Char)
  | 0, _ => []
  | fuel + 1, s =>
    match eventMatchAt s with
    | some (cap, rest) => cap :: eventMatchesF fuel rest
    | none =>
      match s with
      | [] => []
      | _ :: t => eventMatchesF fuel t

def eventMatches (s : List Char) : List (List Char) :=
  eventMatchesF s.length s

/-- Model of `delta.replace(eventMarkerRegex, '')` — this pattern also consumes one
optional newline after the closing brace. -/
def stripEventF : Nat → List Char → List Char
  | 0, s => s
  | fuel + 1, s =>
    match eventMatchAt s with
    | some (_, rest) =>
      stripEventF fuel (match rest with | '\n' :: r => r | _ => rest)
    | none =>
      match s with
      | [] => []
      | c :: t => c :: stripEventF fuel t

def stripEvent (s : List Char) : List Char := stripEventF s.length s

/-- A molecule attachment pushed by `useChatStream` (`name` is guarded
truthy by the code; `smiles` may be absent). -/
structure CSAttachment where
  name : Json
  smiles : Option Json

/-- The attachments contributed by one parsed payload object: its `items`
array when it is an array (elements must be truthy with a truthy `name`),
else its own truthy `name`. -/
def moleculeItemsOf (obj : Json) : List CSAttachment :=
  match jGet obj "items".toList with
  | some (.arr its) =>
    its.filterMap (fun it =>
      if truthy it then
        match jGet it "name".toList with
        | some nv => if truthy nv then some ⟨nv, jGet it "smiles".toList⟩ else none
        | none => none
      else none)
  | _ =>
    match jGet obj "name".toList with
    | some nv => if truthy nv then [⟨nv, jGet obj "smiles".toList⟩] else []
    | none => []

/-- Tool-block scan state: attachments collected this scan and the
accumulated seen-set of exact matched texts. -/
structure ToolScan where
  attach : List CSAttachment
  seen : List (List Char)

/-- One iteration of the tool-block `while` loop: skip seen matches, drop
parse failures silently, and only a `draw_molecule` object attaches and is
recorded as seen. -/
def toolScanFold (st : ToolScan) (m : List Char × List Char) : ToolScan :=
  if m.1 ∈ st.seen then st
  else
    match jsonParse m.2 with
    | none => st
    | some obj =>
      match jGet obj "tool".toList with
      | some (.str t) =>
        if t = "draw_molecule".toList then
          { attach := st.attach ++ moleculeItemsOf obj, seen := st.seen ++ [m.1] }
        else st
      | _ => st

/-- One iteration of the `[EVENT]` loop: parse failures are dropped,
`molecule` events attach — with no seen-set. -/
def eventScanFold (acc : List CSAttachment) (cap : List Char) : List CSAttachment :=
  match jsonParse cap with
  | none => acc
  | some evt =>
    match jGet evt "type".toList with
    | some (.str t) => if t = "molecule".toList then acc ++ moleculeItemsOf evt else acc
    | _ => acc

/-- Model of `processStreamChunk(buffer, selectedId)`: returns the tool attachments,
the updated seen-set, and the event attachments of this scan. -/
def processStreamChunk (buffer : List Char) (seen : List (List Char)) :
    List CSAttachment × List (List Char) × List CSAttachment :=
  let t := (toolMatches buffer).foldl toolScanFold ⟨[], seen⟩
  let e := (eventMatches buffer).foldl eventScanFold []
  (t.attach, t.seen, e)

/-- State of the `sendMessage` streaming loop of `useChatStream`: the
accumulated buffer, the processed-length marker, the seen-set, the
attachments pushed so far (in push order, tool attachments of a scan before
its event attachments), and the displayed assistant text built from
stripped deltas. -/
structure StreamState where
  acc : List Char
  processedLen : Nat
  seen : List (List Char)
  attachments : List CSAttachment
  displayed : List Char

def initStream : StreamState := ⟨[], 0, [], [], []⟩

/-- One loop iteration on one decoded chunk: empty chunks are skipped;
otherwise the whole accumulated buffer is re-scanned and the delta (the
chunk beyond the processed length) is stripped of tool fences then event
markers before being appended to the displayed text. -/
def streamStep (st : StreamState) (chunk : List Char) : StreamState :=
  if chunk = [] then st
  else
    let acc := st.acc ++ chunk
    let delta := acc.drop st.processedLen
    let scan := processStreamChunk acc st.seen
    let displayDelta := stripEvent (stripTool delta)
    { acc := acc, processedLen := acc.length, seen := scan.2.1,
      attachments := st.attachments ++ scan.1 ++ scan.2.2,
      displayed := st.displayed ++ displayDelta }

def streamRun (chunks : List (List Char)) : StreamState :=
  chunks.foldl streamStep initStream

/-- C2: the `[EVENT]` molecule payload completed by the first chunk is
attached again by the re-scan after the second chunk: the run over the two
fragments attaches the same payload occurrence twice, although the claim
(and spec §4.2) requires exactly-once emission.  The event-marker path has
no seen-set, unlike the fenced tool-block path. -/
theorem C2_event_payload_reemitted_on_rescan :
    (streamRun ["[EVENT]\x7b\"type\":\"molecule\",\"name\":\"water\",\"smiles\":\"O\"\x7d\n".toList,
        "ok".toList]).attachments
      = [⟨.str "water".toList, some (.str "O".toList)⟩,
         ⟨.str "water".toList, some (.str "O".toList)⟩] := by
  rfl

theorem toolScanFold_skip {st : ToolScan} {m : List Char × List Char}
    (h : jsonParse m.2 = none) : toolScanFold st m = st := by
  unfold toolScanFold
  by_cases hseen : m.1 ∈ st.seen
  · rw [if_pos hseen]
  · rw [if_neg hseen, h]

theorem eventScanFold_skip {acc : List CSAttachment} {cap : List Char}
    (h : jsonParse cap = none) : eventScanFold acc cap = acc := by
  unfold eventScanFold
  rw [h]

theorem foldl_toolScan_erase (ms1 : List (List Char × List Char))
    (bad : List Char × List Char) (ms2 : List (List Char × List Char))
    (h : jsonParse bad.2 = none) :
    ∀ st : ToolScan,
    (ms1 ++ bad :: ms2).foldl toolScanFold st = (ms1 ++ ms2).foldl toolScanFold st := by
  induction ms1 with
  | nil =>
    intro st
    show List.foldl toolScanFold (toolScanFold st bad) ms2 = _
    rw [toolScanFold_skip h, List.nil_append]
  | cons m ms ih =>
    intro st
    show List.foldl toolScanFold (toolScanFold st m) (ms ++ bad :: ms2) = _
    rw [ih (toolScanFold st m)]
    rfl

theorem foldl_eventScan_erase (es1 : List (List Char)) (bad : List Char)
    (es2 : List (List Char)) (h : jsonParse bad = none) :
    ∀ acc : List CSAttachment,
    (es1 ++ bad :: es2).foldl eventScanFold acc = (es1 ++ es2).foldl eventScanFold acc := by
  induction es1 with
  | nil =>
    intro acc
    show List.foldl eventScanFold (eventScanFold acc bad) es2 = _
    rw [eventScanFold_skip h, List.nil_append]
  | cons e es ih =>
    intro acc
    show List.foldl eventScanFold (eventScanFold acc e) (es ++ bad :: es2) = _
    rw [ih (eventScanFold acc e)]
    rfl

/-- C7 (counterexample): a malformed tool candidate whose bytes are split
across two chunks is shown as prose — neither delta contains a complete
fence, so the per-delta strip removes nothing and the whole candidate
reaches the displayed text (it is still never attached); stripping the
whole concatenation at once would have removed it. -/
theorem C7_malformed_shown_as_prose_counterexample :
    (streamRun ["\x60\x60\x60json \x7b\"x\" \"tool\"".toList,
        "\x7d\x60\x60\x60 ok".toList]).displayed
      = ("\x60\x60\x60json \x7b\"x\" \"tool\"".toList ++ "\x7d\x60\x60\x60 ok".toList) ∧
    (streamRun ["\x60\x60\x60json \x7b\"x\" \"tool\"".toList,
        "\x7d\x60\x60\x60 ok".toList]).attachments = [] ∧
    stripTool ("\x60\x60\x60json \x7b\"x\" \"tool\"".toList
        ++ "\x7d\x60\x60\x60 ok".toList) = " ok".toList := by
  refine ⟨rfl, rfl, rfl⟩

/-- C7 (amended): a candidate payload that fails to parse contributes
nothing to any scan — it is never attached and (not being recorded as seen)
deterministically fails again on every re-scan — and its presence in the
match list changes nothing else: the scan of a buffer whose matches are
`ms1 ++ bad :: ms2` equals the fold over `ms1 ++ ms2` alone, so every
later well-formed payload is still detected and emitted; this holds for
both fenced tool blocks and `[EVENT]` markers.  (Its raw text can however
appear in the displayed prose when split across chunks.) -/
theorem C7_malformed_payload_isolation_amended :
    (∀ (buffer : List Char) (seen : List (List Char))
       (ms1 ms2 : List (List Char × List Char)) (bad : List Char × List Char),
      toolMatches buffer = ms1 ++ bad :: ms2 → jsonParse bad.2 = none →
      (toolMatches buffer).foldl toolScanFold ⟨[], seen⟩
        = (ms1 ++ ms2).foldl toolScanFold ⟨[], seen⟩) ∧
    (∀ (buffer : List Char) (es1 es2 : List (List Char)) (bad : List Char),
      eventMatches buffer = es1 ++ bad :: es2 → jsonParse bad = none →
      (eventMatches buffer).foldl eventScanFold []
        = (es1 ++ es2).foldl eventScanFold []) := by
  constructor
  · intro buffer seen ms1 ms2 bad hm hbad
    rw [hm, foldl_toolScan_erase ms1 bad ms2 hbad]
  · intro buffer es1 es2 bad hm hbad
    rw [hm, foldl_eventScan_erase es1 bad es2 hbad]

theorem C7_malformed_payload_isolation_amended_witness :
    (toolMatches ("\x60\x60\x60\x7b\"a\" \"tool\"\x7d\x60\x60\x60 \x60\x60\x60\x7b\"tool\":\"draw_molecule\",\"name\":\"w\"\x7d\x60\x60\x60".toList)).foldl
        toolScanFold ⟨[], []⟩
      = ([] ++ [("\x60\x60\x60\x7b\"tool\":\"draw_molecule\",\"name\":\"w\"\x7d\x60\x60\x60".toList,
           "\x7b\"tool\":\"draw_molecule\",\"name\":\"w\"\x7d".toList)]).foldl
        toolScanFold ⟨[], []⟩ ∧
    (eventMatches ("[EVENT]\x7bnope\x7d\n[EVENT]\x7b\"type\":\"molecule\",\"name\":\"w\"\x7d\n".toList)).foldl
        eventScanFold []
      = ([] ++ ["\x7b\"type\":\"molecule\",\"name\":\"w\"\x7d".toList]).foldl
        eventScanFold [] :=
  ⟨C7_malformed_payload_isolation_amended.1 _ [] [] _
      ("\x60\x60\x60\x7b\"a\" \"tool\"\x7d\x60\x60\x60".toList,
       "\x7b\"a\" \"tool\"\x7d".toList) rfl rfl,
   C7_malformed_payload_isolation_amended.2 _ [] _
      ("\x7bnope\x7d".toList) rfl rfl⟩

/-! ## Sentence extraction (`useVoice.js`)

`extractStableSentences(text, startIndex)` slices from the cursor, splits
on `([.!?])\s+` (capture group kept in the part list), folds the parts
joining them with single spaces and closing a sentence at each lone
terminator part, and advances the cursor by the length of the joined
sentences plus one space — which the code itself calls approximate. -/

def termChar (c : Char) : Bool := c = '.' || c = '!' || c = '?'

def headIsWs : List Char → Bool
  | r :: _ => isWsChar r
  | [] => false

/-- Model of `slice.split(/([.!?])\s+/)`: text parts alternate with single-character
terminator parts; the whitespace run after a terminator is consumed.
Fuel-driven (each step consumes at least one character, so the fuel
supplied by `splitTerm` is always sufficient). -/
def splitTermAuxF : Nat → List Char → List Char → List (List Char)
  | 0, acc, _ => [acc.reverse]
  | fuel + 1, acc, s =>
    match s with
    | [] => [acc.reverse]
    | c :: rest =>
      if termChar c && headIsWs rest then
        acc.reverse :: [c] :: splitTermAuxF fuel [] (rest.dropWhile isWsChar)
      else
        splitTermAuxF fuel (c :: acc) rest

def splitTerm (s : List Char) : List (List Char) := splitTermAuxF (s.length + 1) [] s

/-- Model of `seg.match(/^[.!?]$/)`: a part consisting of exactly one terminator. -/
def isTermSeg : List Char → Bool
  | [c] => termChar c
  | _ => false

/-- One iteration of the accumulation loop over the split parts: empty
parts are skipped, every part is trimmed and joined onto the accumulator
with a single space, and a lone-terminator part closes the sentence (the
trimmed accumulator is pushed when nonempty, and the accumulator resets). -/
def sentStep (st : List Char × List (List Char)) (seg : List Char) :
    List Char × List (List Char) :=
  if seg = [] then st
  else if isTermSeg seg then
    if trimWs ((st.1 ++ (if st.1 = [] then [] else [' '])) ++ trimWs seg) = []
    then ([], st.2)
    else ([], st.2
      ++ [trimWs ((st.1 ++ (if st.1 = [] then [] else [' '])) ++ trimWs seg)])
  else ((st.1 ++ (if st.1 = [] then [] else [' '])) ++ trimWs seg, st.2)

/-- Model of `sentences.join(' ')`. -/
def joinSpace : List (List Char) → List Char
  | [] => []
  | [x] => x
  | x :: xs => x ++ ' ' :: joinSpace xs

structure ExtractResult where
  sentences : List (List Char)
  nextIndex : Nat

def extractStableSentences (text : List Char) (startIndex : Nat) : ExtractResult :=
  if (splitTerm (text.drop startIndex)).length ≤ 1 then ⟨[], startIndex⟩
  else
    ⟨((splitTerm (text.drop startIndex)).foldl sentStep ([], [])).2,
     startIndex
       + (joinSpace (((splitTerm (text.drop startIndex)).foldl sentStep
           ([], [])).2) ++ [' ']).length⟩

/-- The incremental use in `speakText`: after each fragment the extractor
runs on the whole text so far, starting from the carried index, and the
returned next index is carried forward. -/
def incRunAux (text : List Char) (idx : Nat) : List (List Char) → List (List Char)
  | [] => []
  | f :: fs =>
    let t := text ++ f
    let r := extractStableSentences t idx
    r.sentences ++ incRunAux t r.nextIndex fs

def incrementalExtract (frags : List (List Char)) : List (List Char) :=
  incRunAux [] 0 frags

/-- C5 (counterexample): on the concatenation of the scenario fragments the
extractor does not produce the claimed sentences `Benzene is a ring.` and
`It has six carbons.` — the accumulation loop joins each terminator onto
the sentence with a space. -/
theorem C5_sentence_scenario_counterexample :
    (extractStableSentences ("Benzene is a ring".toList
        ++ ". It has six carbons. ".toList) 0).sentences
      ≠ ["Benzene is a ring.".toList, "It has six carbons.".toList] := by
  decide

/-- C5 (amended): the extractor produces exactly two sentences from the
scenario input, each closed by its terminator and trimmed of surrounding
whitespace, but with one joining space before the terminator:
`Benzene is a ring .` and `It has six carbons .`. -/
theorem C5_sentence_scenario_amended :
    (extractStableSentences ("Benzene is a ring".toList
        ++ ". It has six carbons. ".toList) 0).sentences
      = ["Benzene is a ring .".toList, "It has six carbons .".toList] := by
  rfl

/-- C4 (counterexample): the ordered sentence sequence of an incremental
run differs from the one-shot run on the same full text — the carried next
index over-advances by one character per extracted sentence (the inserted
joining space), so the second call starts one character late and the `B` of
`Bye` is lost. -/
theorem C4_fragmentation_invariance_counterexample :
    incrementalExtract ["Hi. ".toList, "Bye. ".toList]
        ≠ (extractStableSentences ("Hi. ".toList ++ "Bye. ".toList) 0).sentences ∧
    incrementalExtract ["Hi. ".toList, "Bye. ".toList]
        = ["Hi .".toList, "ye .".toList] ∧
    (extractStableSentences ("Hi. ".toList ++ "Bye. ".toList) 0).sentences
        = ["Hi .".toList, "Bye .".toList] := by
  refine ⟨by decide, rfl, rfl⟩

theorem splitTermAuxF_gt_one_mem_term :
    ∀ (fuel : Nat) (acc s : List Char),
    1 < (splitTermAuxF fuel acc s).length →
    ∃ c, termChar c = true ∧ [c] ∈ splitTermAuxF fuel acc s := by
  intro fuel
  induction fuel with
  | zero => intro acc s h; simp [splitTermAuxF] at h
  | succ fuel ih =>
    intro acc s h
    cases s with
    | nil => simp [splitTermAuxF] at h
    | cons c rest =>
      by_cases hcond : (termChar c && headIsWs rest) = true
      · refine ⟨c, (Bool.and_eq_true_iff.1 hcond).1, ?_⟩
        simp only [splitTermAuxF, hcond, if_true]
        simp
      · have hcond' : (termChar c && headIsWs rest) = false := by
          cases hv : termChar c && headIsWs rest
          · rfl
          · exact absurd hv hcond
        simp only [splitTermAuxF, hcond', Bool.false_eq_true, if_false] at h ⊢
        exact ih (c :: acc) rest h

theorem termChar_not_ws {c : Char} (h : termChar c = true) : isWsChar c = false := by
  have h2 : (c = '.' ∨ c = '!') ∨ c = '?' := by
    simpa [termChar, decide_eq_true_eq] using h
  rcases h2 with (rfl | rfl) | rfl <;> rfl

theorem trimStart_concat_shape (xs : List Char) {c : Char}
    (hc : isWsChar c = false) : ∃ ys, trimStart (xs ++ [c]) = ys ++ [c] := by
  induction xs with
  | nil =>
    refine ⟨[], ?_⟩
    simp [trimStart, List.dropWhile, hc]
  | cons x xs ih =>
    by_cases hx : isWsChar x = true
    · obtain ⟨ys, hys⟩ := ih
      refine ⟨ys, ?_⟩
      simp only [trimStart, List.cons_append, List.dropWhile, hx] at hys ⊢
      exact hys
    · have hx' : isWsChar x = false := by
        cases hv : isWsChar x
        · rfl
        · exact absurd hv hx
      refine ⟨x :: xs, ?_⟩
      simp [trimStart, List.cons_append, List.dropWhile, hx']

theorem trimEnd_concat_ne_nil (ys : List Char) {c : Char}
    (hc : isWsChar c = false) : trimEnd (ys ++ [c]) ≠ [] := by
  unfold trimEnd
  rw [List.reverse_append]
  simp only [List.reverse_singleton, List.singleton_append, List.dropWhile, hc]
  simp

theorem trimWs_concat_ne_nil (xs : List Char) {c : Char}
    (hc : isWsChar c = false) : trimWs (xs ++ [c]) ≠ [] := by
  unfold trimWs
  obtain ⟨ys, hys⟩ := trimStart_concat_shape xs hc
  rw [hys]
  exact trimEnd_concat_ne_nil ys hc

theorem sentStep_out (st : List Char × List (List Char)) (p : List Char) :
    ∃ e, (sentStep st p).2 = st.2 ++ e := by
  unfold sentStep
  by_cases hp : p = []
  · rw [if_pos hp]
    exact ⟨[], by simp⟩
  · rw [if_neg hp]
    by_cases ht : isTermSeg p = true
    · rw [if_pos ht]
      by_cases hs : trimWs ((st.1 ++ (if st.1 = [] then [] else [' '])) ++ trimWs p) = []
      · rw [if_pos hs]
        exact ⟨[], by simp⟩
      · rw [if_neg hs]
        exact ⟨_, rfl⟩
    · rw [if_neg ht]
      exact ⟨[], by simp⟩

theorem foldl_sentStep_out (ps : List (List Char)) :
    ∀ st : List Char × List (List Char),
    ∃ e, (ps.foldl sentStep st).2 = st.2 ++ e := by
  induction ps with
  | nil => intro st; exact ⟨[], by simp⟩
  | cons p ps ih =>
    intro st
    obtain ⟨e1, he1⟩ := sentStep_out st p
    obtain ⟨e2, he2⟩ := ih (sentStep st p)
    refine ⟨e1 ++ e2, ?_⟩
    show (ps.foldl sentStep (sentStep st p)).2 = _
    rw [he2, he1, List.append_assoc]

theorem foldl_sentStep_term_ne_nil {c : Char} (hc : termChar c = true) :
    ∀ (ps : List (List Char)), [c] ∈ ps →
    ∀ st : List Char × List (List Char), (ps.foldl sentStep st).2 ≠ [] := by
  intro ps
  induction ps with
  | nil => intro hmem; exact absurd hmem (List.not_mem_nil _)
  | cons p ps ih =>
    intro hmem st
    rcases List.mem_cons.1 hmem with hp | hp
    · -- the head is the lone terminator: a sentence is pushed here
      subst hp
      show (ps.foldl sentStep (sentStep st [c])).2 ≠ []
      have hcw := termChar_not_ws hc
      have htc : trimWs [c] = [c] := by
        unfold trimWs trimStart trimEnd
        simp [List.dropWhile, hcw]
      have hs0 : trimWs ((st.1 ++ (if st.1 = [] then [] else [' '])) ++ trimWs [c]) ≠ [] := by
        rw [htc]
        exact trimWs_concat_ne_nil _ hcw
      have hterm : isTermSeg [c] = true := hc
      have hstep : (sentStep st [c]).2
          = st.2 ++ [trimWs ((st.1 ++ (if st.1 = [] then [] else [' '])) ++ trimWs [c])] := by
        unfold sentStep
        rw [if_neg (by simp : ¬ ([c] : List Char) = []), if_pos hterm, if_neg hs0]
      obtain ⟨e, he⟩ := foldl_sentStep_out ps (sentStep st [c])
      rw [he, hstep]
      simp
    · exact ih hp (sentStep st p)

theorem extract_no_sentence_eq {t : List Char} {i : Nat}
    (h : (extractStableSentences t i).sentences = []) :
    extractStableSentences t i = ⟨[], i⟩ := by
  unfold extractStableSentences at h ⊢
  by_cases hlen : (splitTerm (t.drop i)).length ≤ 1
  · rw [if_pos hlen]
  · rw [if_neg hlen] at h
    unfold splitTerm at hlen
    obtain ⟨c, hc, hmem⟩ :=
      splitTermAuxF_gt_one_mem_term ((t.drop i).length + 1) [] (t.drop i) (by omega)
    exact absurd h (foldl_sentStep_term_ne_nil hc _ hmem ([], []))

theorem incRunAux_invariance :
    ∀ (fs : List (List Char)), fs ≠ [] → ∀ (text : List Char),
    (∀ n, n < fs.length →
      (extractStableSentences (text ++ (fs.take n).flatten) 0).sentences = []) →
    incRunAux text 0 fs = (extractStableSentences (text ++ fs.flatten) 0).sentences := by
  intro fs
  induction fs with
  | nil => intro hne; exact absurd rfl hne
  | cons f fs ih =>
    intro _ text h
    cases fs with
    | nil =>
      show (extractStableSentences (text ++ f) 0).sentences
          ++ incRunAux (text ++ f) (extractStableSentences (text ++ f) 0).nextIndex []
        = (extractStableSentences (text ++ [f].flatten) 0).sentences
      show (extractStableSentences (text ++ f) 0).sentences ++ []
        = (extractStableSentences (text ++ [f].flatten) 0).sentences
      rw [List.append_nil]
      have : (([f] : List (List Char)).flatten) = f := by simp
      rw [this]
    | cons f2 fs2 =>
      have h1 : (extractStableSentences (text ++ f) 0).sentences = [] := by
        have h' := h 1 (by simp)
        simpa using h'
      have heq := extract_no_sentence_eq h1
      show (extractStableSentences (text ++ f) 0).sentences
          ++ incRunAux (text ++ f)
              (extractStableSentences (text ++ f) 0).nextIndex (f2 :: fs2)
        = (extractStableSentences (text ++ (f :: f2 :: fs2).flatten) 0).sentences
      rw [heq]
      have hshift : ∀ n, n < (f2 :: fs2).length →
          (extractStableSentences ((text ++ f) ++ ((f2 :: fs2).take n).flatten)
            0).sentences = [] := by
        intro n hn
        have h'' := h (n + 1) (by simpa using hn)
        simpa [List.take_succ_cons, List.flatten_cons, List.append_assoc] using h''
      show [] ++ incRunAux (text ++ f) 0 (f2 :: fs2) = _
      rw [List.nil_append, ih (List.cons_ne_nil f2 fs2) (text ++ f) hshift]
      simp [List.flatten_cons, List.append_assoc]

/-- C4 (amended): the sentence extractor with its carried next index is not
fragmentation-invariant in general (the index over-advances by one
character per extracted sentence, see the counterexample); the incremental
run agrees with the one-shot run exactly on those fragmentations in which
no proper prefix of the text yields a sentence, i.e. when every sentence
completes only in the final call. -/
theorem C4_fragmentation_invariance_amended (frags : List (List Char))
    (h : ∀ n, n < frags.length →
      (extractStableSentences ((frags.take n).flatten) 0).sentences = []) :
    incrementalExtract frags = (extractStableSentences frags.flatten 0).sentences := by
  cases frags with
  | nil => rfl
  | cons f fs =>
    have hrun := incRunAux_invariance (f :: fs) (List.cons_ne_nil f fs) []
      (by intro n hn; simpa using h n hn)
    simpa [incrementalExtract] using hrun

theorem C4_fragmentation_invariance_amended_witness :
    (∀ n, n < (["Hel".toList, "lo. ".toList] : List (List Char)).length →
      (extractStableSentences
        (((["Hel".toList, "lo. ".toList] : List (List Char)).take n).flatten)
        0).sentences = []) ∧
    incrementalExtract ["Hel".toList, "lo. ".toList]
      = (extractStableSentences
          ((["Hel".toList, "lo. ".toList] : List (List Char)).flatten) 0).sentences :=
  ⟨by decide, C4_fragmentation_invariance_amended _ (by decide)⟩

end ChemApp
